import Mathlib

/-!
Verification development for the WordleAgent repository (src/agent.py).

The agent selects Wordle guesses by estimating, for each candidate guess,
the expected size of the remaining answer pool (an expectimax-style
recursion over letter positions), and caches best guesses keyed by the
feedback history string.

Shallow embedding conventions:
* A word is a `List Char` (Python `str` used as a sequence of letters).
* Python float arithmetic on scores is modelled with `ℚ`
  (all quantities are finite rationals: lengths and divisions thereof).
* Python exceptions (IndexError on `pool[0]`, TypeError on `None + str`,
  AttributeError on `None.val`) are modelled by `Option`-valued steps
  returning `none`.
* The Python dict `cache` is modelled as an association list with
  first-match lookup; `dict.setdefault` inserts only when the key is absent.
* `filter_possible_words` lives in util.py, outside this repository's src;
  the spec declares it an external collaborator, so state-transition
  functions take it as a parameter `filt`.
-/

/-- A word: a sequence of letters (Python `str`). -/
abbrev Word := List Char

/-- Embedding of `MyWordleAgent.get_pool(guess, pos, pool)` (src/agent.py:318-336):
splits `pool` into (green, yellow, grey) buckets at letter position `pos`:
`guess[pos] == word[pos]` → green; else `guess[pos] in word` → yellow;
else grey, appending in iteration order.  Python indexing `guess[pos]` /
`word[pos]` is embedded with `List.getD pos ' '`, which agrees with the
source whenever `pos` is in range.  -/
def get_pool (guess : Word) (pos : Nat) : List Word → List Word × List Word × List Word
  | [] => ([], [], [])
  | w :: ws =>
    let rest := get_pool guess pos ws
    if guess.getD pos ' ' = w.getD pos ' ' then (w :: rest.1, rest.2.1, rest.2.2)
    else if guess.getD pos ' ' ∈ w then (rest.1, w :: rest.2.1, rest.2.2)
    else (rest.1, rest.2.1, w :: rest.2.2)

/-- Embedding of `MyWordleAgent.calculate_score(guess, pos, node)`
(src/agent.py:287-316).  The score is a pure function of
`(guess, pos, node.pool)`; the `Node` children built along the way are
transient scaffolding discarded after the score is read, so the embedding
returns just the score.  `MIN_POOL_SIZE = 1`, `LAST_POSITION = 4`:
if `len(pool) <= 1` return 1; if `pos > 4` return `len(pool)`; else
partition and return the bucket-frequency-weighted sum of child scores. -/
def calculate_score (guess : Word) (pos : Nat) (pool : List Word) : ℚ :=
  if pool.length ≤ 1 then 1
  else if 4 < pos then (pool.length : ℚ)
  else
    let b := get_pool guess pos pool
    ((b.1.length : ℚ) / (pool.length : ℚ)) * calculate_score guess (pos + 1) b.1
    + ((b.2.1.length : ℚ) / (pool.length : ℚ)) * calculate_score guess (pos + 1) b.2.1
    + ((b.2.2.length : ℚ) / (pool.length : ℚ)) * calculate_score guess (pos + 1) b.2.2
termination_by 5 - pos
decreasing_by all_goals omega

/-- Modelled from the spec (§4.2), for comparison with `calculate_score`:
word length L = 5; base case A: `len(pool) <= 1` returns 1; base case B:
`pos` past the last letter position (`pos ≥ L`) returns `len(pool)`;
recursive case: partition at `pos`, recurse into each NON-EMPTY bucket at
`pos + 1` weighting by `bucket_size / len(pool)`, with empty buckets
contributing zero without recursing. -/
def spec_score (guess : Word) (pos : Nat) (pool : List Word) : ℚ :=
  if pool.length ≤ 1 then 1
  else if 5 ≤ pos then (pool.length : ℚ)
  else
    let b := get_pool guess pos pool
    (if b.1 = [] then 0
      else ((b.1.length : ℚ) / (pool.length : ℚ)) * spec_score guess (pos + 1) b.1)
    + (if b.2.1 = [] then 0
      else ((b.2.1.length : ℚ) / (pool.length : ℚ)) * spec_score guess (pos + 1) b.2.1)
    + (if b.2.2 = [] then 0
      else ((b.2.2.length : ℚ) / (pool.length : ℚ)) * spec_score guess (pos + 1) b.2.2)
termination_by 5 - pos
decreasing_by all_goals omega

/-- Embedding of the selection loop of `MyWordleAgent.find_guess`
(src/agent.py:261-268): `best_score` starts at `float('inf')` and
`best_tree` at `None` (modelled by the accumulator starting as `none`,
since every computed score is finite and therefore beats infinity);
a candidate replaces the incumbent only on a strictly lower score.
Returns the best word together with its score (`Tree.val` is the word the
tree was built around, so returning the word models returning the tree).
`find_guess_fold` is one loop iteration; `find_guess_best` folds it over
the allowed-guess list. -/
def find_guess_fold (pool : List Word) (best : Option (Word × ℚ)) (g : Word) :
    Option (Word × ℚ) :=
  let score := calculate_score g 0 pool
  match best with
  | none => some (g, score)
  | some (bg, bs) => if score < bs then some (g, score) else some (bg, bs)

/-- The full selection loop of `MyWordleAgent.find_guess` (src/agent.py:261-268). -/
def find_guess_best (can_guess : List Word) (pool : List Word) : Option (Word × ℚ) :=
  can_guess.foldl (find_guess_fold pool) none

/-- Embedding of `dict.setdefault(k, v)` on the cache: insert `k ↦ v` only
when `k` has no binding yet; an existing binding is never overwritten. -/
def setdefault (cache : List (String × Word)) (k : String) (v : Word) :
    List (String × Word) :=
  if (cache.lookup k).isSome then cache else cache ++ [(k, v)]

/-- Embedding of `self.feedback_so_far in self.cache` / `self.cache.get(...)`:
the key may be Python `None` (before any game started), which is never a
key of the string-keyed cache. -/
def cacheLookup (cache : List (String × Word)) (k : Option String) : Option Word :=
  match k with
  | none => none
  | some key => cache.lookup key

/-- The mutable state of `MyWordleAgent` (src/agent.py:200-213).
`feedback_so_far` and `guess` start as Python `None`, modelled by `Option`.
`searches` is a ghost field, not present in the source: it counts
invocations of the guess selector `find_guess`, letting theorems state
that a code path performs no selector search.  -/
structure AgentState where
  allowed : List Word
  possible : List Word
  pool : List Word
  can_guess : List Word
  cache : List (String × Word)
  feedback_so_far : Option String
  guess : Option Word
  searches : Nat

/-- Embedding of `MyWordleAgent.__init__(allowed, possible)`
(src/agent.py:200-213). -/
def AgentState.init (allowed possible : List Word) : AgentState :=
  { allowed := allowed, possible := possible, pool := possible, can_guess := allowed
    cache := [], feedback_so_far := none, guess := none, searches := 0 }

/-- Embedding of `MyWordleAgent.find_guess` (src/agent.py:252-271) as a state
transition: run the selection loop, then `if len(self.feedback_so_far) != 0:
self.cache.setdefault(self.feedback_so_far, best_tree.val)`, and return the
best word (`best_tree.val`).  `none` models the TypeError raised by
`len(None)` when `feedback_so_far` is still `None`, and the AttributeError
raised by `best_tree.val` when the allowed set is empty.  The ghost
`searches` counter is incremented to record the selector invocation. -/
def find_guess_step (s : AgentState) : Option (Word × AgentState) :=
  let s1 := { s with searches := s.searches + 1 }
  match s1.feedback_so_far with
  | none => none
  | some fb =>
    match find_guess_best s1.can_guess s1.pool with
    | none => none
    | some (g, _) =>
      if fb.length ≠ 0 then some (g, { s1 with cache := setdefault s1.cache fb g })
      else some (g, s1)

/-- Embedding of `MyWordleAgent.first_guess` (src/agent.py:215-226): reset
`pool` to `possible`, `can_guess` to `allowed`, `feedback_so_far` to `""`;
if the lifetime first guess `self.guess` is still `None`, compute it via
`find_guess` and store it; return it. -/
def first_guess_step (s : AgentState) : Option (Word × AgentState) :=
  let s1 := { s with pool := s.possible, can_guess := s.allowed,
                     feedback_so_far := some "" }
  match s1.guess with
  | some g => some (g, s1)
  | none =>
    match find_guess_step s1 with
    | none => none
    | some (g, s2) => some (g, { s2 with guess := some g })

/-- Embedding of `MyWordleAgent.next_guess` (src/agent.py:228-239):
`GUESS_RANDOM_POOL_SIZE = 3`; if `len(pool) <= 3` return `pool[0]`
(IndexError on an empty pool, modelled by `none`); else if the feedback
history is a cache key return the cached word; else run `find_guess`. -/
def next_guess_step (s : AgentState) : Option (Word × AgentState) :=
  if s.pool.length ≤ 3 then
    match s.pool.head? with
    | none => none
    | some w => some (w, s)
  else
    match cacheLookup s.cache s.feedback_so_far with
    | some w => some (w, s)
    | none => find_guess_step s

/-- Embedding of `MyWordleAgent.report_feedback(guess, feedback)`
(src/agent.py:241-250): replace the pool by
`filter_possible_words(guess, feedback, pool)` (the external collaborator
`filt`), then append `''.join(feedback)` to `feedback_so_far`.  When
`feedback_so_far` is Python `None`, the `+=` raises a TypeError, modelled
by `none`. -/
def report_feedback_step (filt : Word → List String → List Word → List Word)
    (s : AgentState) (guess : Word) (feedback : List String) : Option AgentState :=
  match s.feedback_so_far with
  | none => none
  | some fb =>
    some { s with pool := filt guess feedback s.pool,
                  feedback_so_far := some (fb ++ String.join feedback) }

/-- The agent's public operations (§6 of the spec). -/
inductive AgentOp where
  | firstGuess : AgentOp
  | nextGuess : AgentOp
  | reportFeedback : Word → List String → AgentOp

/-- One public-interface step of the agent: the returned `Option Word` is
the guess produced by a guess request (`none` for `report_feedback`,
which returns nothing). -/
def agent_step (filt : Word → List String → List Word → List Word)
    (s : AgentState) : AgentOp → Option (Option Word × AgentState)
  | .firstGuess => (first_guess_step s).map (fun p => (some p.1, p.2))
  | .nextGuess => (next_guess_step s).map (fun p => (some p.1, p.2))
  | .reportFeedback g fb => (report_feedback_step filt s g fb).map (fun s' => (none, s'))

/-- The five test words used by src/unitTests.py. -/
def birch : Word := ['b', 'i', 'r', 'c', 'h']

def beech : Word := ['b', 'e', 'e', 'c', 'h']

def cedar : Word := ['c', 'e', 'd', 'a', 'r']

def ebony : Word := ['e', 'b', 'o', 'n', 'y']

def maple : Word := ['m', 'a', 'p', 'l', 'e']

/-- The answer pool of src/unitTests.py. -/
def testPool : List Word := [birch, beech, cedar, ebony, maple]

/-- The green-bucket membership test of `get_pool`, as a Boolean predicate. -/
def isGreen (guess : Word) (pos : Nat) (w : Word) : Bool :=
  guess.getD pos ' ' == w.getD pos ' '

/-- The yellow-bucket membership test of `get_pool`, as a Boolean predicate. -/
def isYellow (guess : Word) (pos : Nat) (w : Word) : Bool :=
  !isGreen guess pos w && w.contains (guess.getD pos ' ')

/-- The grey-bucket membership test of `get_pool`, as a Boolean predicate. -/
def isGrey (guess : Word) (pos : Nat) (w : Word) : Bool :=
  !isGreen guess pos w && !w.contains (guess.getD pos ' ')

/-- A trivial pool filter standing in for the external
`filter_possible_words` collaborator in concrete instantiations. -/
def idFilter : Word → List String → List Word → List Word := fun _ _ pool => pool

/-- Concrete agent state with a one-word pool, for instantiating the
next-guess decision-order theorem. -/
def smallPoolState : AgentState :=
  ⟨[], [], [birch], [], [], none, none, 0⟩

/-- Concrete agent state with an empty pool, for instantiating the
empty-pool error theorem. -/
def emptyPoolState : AgentState :=
  ⟨[], [], [], [], [], none, none, 0⟩

/-- Concrete mid-game agent state (non-empty feedback history), for
instantiating the step-invariant theorem. -/
def midGameState : AgentState :=
  ⟨[], [], [], [], [], some "g", none, 0⟩

/-- `midGameState` after a `report_feedback` step with empty feedback. -/
def midGameStateAfter : AgentState :=
  ⟨[], [], [], [], [], some ("g" ++ String.join []), none, 0⟩

/-- The state reached by the first `first_guess` call on a fresh agent
with allowed = ["ebony"] and an empty possible-answer list. -/
def firstGuessedState : AgentState :=
  ⟨[ebony], [], [], [ebony], [], some "", some ebony, 1⟩

theorem get_pool_eq_filter (guess : Word) (pos : Nat) (pool : List Word) :
    get_pool guess pos pool =
      (pool.filter (isGreen guess pos),
       pool.filter (isYellow guess pos),
       pool.filter (isGrey guess pos)) := by
  induction pool with
  | nil => simp [get_pool]
  | cons w ws ih =>
    simp only [get_pool, ih]
    split
    · rename_i h1
      simp only [List.getD_eq_getElem?_getD] at h1
      simp [isGreen, isYellow, isGrey, List.filter_cons, h1]
    · rename_i h1
      simp only [List.getD_eq_getElem?_getD] at h1
      split
      · rename_i h2
        simp only [List.getD_eq_getElem?_getD] at h2
        simp [isGreen, isYellow, isGrey, List.filter_cons, h1, h2, List.elem_iff]
      · rename_i h2
        simp only [List.getD_eq_getElem?_getD] at h2
        simp [isGreen, isYellow, isGrey, List.filter_cons, h1, h2, List.elem_iff]

theorem get_pool_length_sum (guess : Word) (pos : Nat) (pool : List Word) :
    (get_pool guess pos pool).1.length + (get_pool guess pos pool).2.1.length
      + (get_pool guess pos pool).2.2.length = pool.length := by
  induction pool with
  | nil => simp [get_pool]
  | cons w ws ih =>
    simp only [get_pool]
    split
    · simp only [List.length_cons]; omega
    · split
      · simp only [List.length_cons]; omega
      · simp only [List.length_cons]; omega

theorem contains_eq_false_iff (l : List Char) (a : Char) :
    (l.contains a = false) ↔ a ∉ l := by
  simp [List.elem_iff]

theorem count_three_filters (w : Word) (pool : List Word)
    (p q r : Word → Bool) (hw : (p w ∧ ¬q w ∧ ¬r w) ∨ (¬p w ∧ q w ∧ ¬r w)
      ∨ (¬p w ∧ ¬q w ∧ r w)) :
    (pool.filter p).count w + (pool.filter q).count w + (pool.filter r).count w
      = pool.count w := by
  have hzero : ∀ t : Word → Bool, ¬t w → (pool.filter t).count w = 0 := by
    intro t ht
    refine List.count_eq_zero.mpr ?_
    intro hmem
    exact ht (List.mem_filter.mp hmem).2
  have hfull : ∀ t : Word → Bool, t w → (pool.filter t).count w = pool.count w := by
    intro t ht
    exact List.count_filter ht
  rcases hw with ⟨h1, h2, h3⟩ | ⟨h1, h2, h3⟩ | ⟨h1, h2, h3⟩
  · rw [hfull p h1, hzero q h2, hzero r h3]; omega
  · rw [hzero p h1, hfull q h2, hzero r h3]; omega
  · rw [hzero p h1, hzero q h2, hfull r h3]; omega

/-- C2: for every guess, every position `pos` in range, and every pool,
`get_pool` returns three order-preserving (sublist) sub-pools that are
pairwise disjoint, whose multiplicities sum to those of the pool (every
word of the pool lands in exactly one bucket), classified by: green if
the word's letter at `pos` equals the guess's letter at `pos`; else
yellow if the guess's letter at `pos` occurs anywhere in the word; else
grey. -/
theorem get_pool_partition (guess : Word) (pos : Nat) (pool : List Word)
    (hg : pos < guess.length) (hp : ∀ w ∈ pool, pos < w.length) :
    ((get_pool guess pos pool).1.Sublist pool
      ∧ (get_pool guess pos pool).2.1.Sublist pool
      ∧ (get_pool guess pos pool).2.2.Sublist pool)
    ∧ ((get_pool guess pos pool).1.length + (get_pool guess pos pool).2.1.length
        + (get_pool guess pos pool).2.2.length = pool.length)
    ∧ (∀ w ∈ pool,
        (w ∈ (get_pool guess pos pool).1 ↔ w.getD pos ' ' = guess.getD pos ' ')
        ∧ (w ∈ (get_pool guess pos pool).2.1 ↔
            w.getD pos ' ' ≠ guess.getD pos ' ' ∧ guess.getD pos ' ' ∈ w)
        ∧ (w ∈ (get_pool guess pos pool).2.2 ↔
            w.getD pos ' ' ≠ guess.getD pos ' ' ∧ guess.getD pos ' ' ∉ w))
    ∧ (∀ w : Word,
        ¬(w ∈ (get_pool guess pos pool).1 ∧ w ∈ (get_pool guess pos pool).2.1)
        ∧ ¬(w ∈ (get_pool guess pos pool).1 ∧ w ∈ (get_pool guess pos pool).2.2)
        ∧ ¬(w ∈ (get_pool guess pos pool).2.1 ∧ w ∈ (get_pool guess pos pool).2.2))
    ∧ (∀ w : Word,
        (get_pool guess pos pool).1.count w + (get_pool guess pos pool).2.1.count w
          + (get_pool guess pos pool).2.2.count w = pool.count w) := by
  rw [get_pool_eq_filter]
  refine ⟨⟨List.filter_sublist _, List.filter_sublist _, List.filter_sublist _⟩,
    ?_, ?_, ?_, ?_⟩
  · have h := get_pool_length_sum guess pos pool
    rw [get_pool_eq_filter] at h
    exact h
  · intro w hw
    refine ⟨?_, ?_, ?_⟩
    · rw [List.mem_filter]
      simp only [hw, true_and, isGreen, beq_iff_eq]
      exact eq_comm
    · rw [List.mem_filter]
      simp only [hw, true_and, isYellow, isGreen, Bool.and_eq_true,
        Bool.not_eq_true', beq_eq_false_iff_ne, ne_eq, List.elem_iff]
      constructor
      · rintro ⟨h1, h2⟩; exact ⟨fun hh => h1 hh.symm, h2⟩
      · rintro ⟨h1, h2⟩; exact ⟨fun hh => h1 hh.symm, h2⟩
    · rw [List.mem_filter]
      simp only [hw, true_and, isGrey, isGreen, Bool.and_eq_true,
        Bool.not_eq_true', beq_eq_false_iff_ne, ne_eq, contains_eq_false_iff]
      constructor
      · rintro ⟨h1, h2⟩; exact ⟨fun hh => h1 hh.symm, h2⟩
      · rintro ⟨h1, h2⟩; exact ⟨fun hh => h1 hh.symm, h2⟩
  · intro w
    refine ⟨?_, ?_, ?_⟩ <;> rintro ⟨ha, hb⟩
    · have h1 := (List.mem_filter.mp ha).2
      have h2 := (List.mem_filter.mp hb).2
      simp only [isYellow, Bool.and_eq_true, Bool.not_eq_true'] at h2
      exact absurd h1 (by simp [h2.1])
    · have h1 := (List.mem_filter.mp ha).2
      have h2 := (List.mem_filter.mp hb).2
      simp only [isGrey, Bool.and_eq_true, Bool.not_eq_true'] at h2
      exact absurd h1 (by simp [h2.1])
    · have h1 := (List.mem_filter.mp ha).2
      have h2 := (List.mem_filter.mp hb).2
      simp only [isYellow, Bool.and_eq_true, Bool.not_eq_true'] at h1
      simp only [isGrey, Bool.and_eq_true, Bool.not_eq_true'] at h2
      rw [h1.2] at h2
      simp at h2
  · intro w
    apply count_three_filters
    by_cases h1 : isGreen guess pos w
    · exact Or.inl (by simp_all [isYellow, isGrey])
    · by_cases h2 : w.contains (guess.getD pos ' ')
      · exact Or.inr (Or.inl (by simp_all [isYellow, isGrey]))
      · exact Or.inr (Or.inr (by simp_all [isYellow, isGrey]))

/-- C2 witness: instantiated at guess "birch", position 0, the unit-test
pool, with the in-range hypotheses discharged concretely. -/
theorem get_pool_partition_witness :
    (0 < birch.length ∧ ∀ w ∈ testPool, 0 < w.length)
    ∧ (((get_pool birch 0 testPool).1.Sublist testPool
      ∧ (get_pool birch 0 testPool).2.1.Sublist testPool
      ∧ (get_pool birch 0 testPool).2.2.Sublist testPool)
    ∧ ((get_pool birch 0 testPool).1.length + (get_pool birch 0 testPool).2.1.length
        + (get_pool birch 0 testPool).2.2.length = testPool.length)
    ∧ (∀ w ∈ testPool,
        (w ∈ (get_pool birch 0 testPool).1 ↔ w.getD 0 ' ' = birch.getD 0 ' ')
        ∧ (w ∈ (get_pool birch 0 testPool).2.1 ↔
            w.getD 0 ' ' ≠ birch.getD 0 ' ' ∧ birch.getD 0 ' ' ∈ w)
        ∧ (w ∈ (get_pool birch 0 testPool).2.2 ↔
            w.getD 0 ' ' ≠ birch.getD 0 ' ' ∧ birch.getD 0 ' ' ∉ w))
    ∧ (∀ w : Word,
        ¬(w ∈ (get_pool birch 0 testPool).1 ∧ w ∈ (get_pool birch 0 testPool).2.1)
        ∧ ¬(w ∈ (get_pool birch 0 testPool).1 ∧ w ∈ (get_pool birch 0 testPool).2.2)
        ∧ ¬(w ∈ (get_pool birch 0 testPool).2.1 ∧ w ∈ (get_pool birch 0 testPool).2.2))
    ∧ (∀ w : Word,
        (get_pool birch 0 testPool).1.count w + (get_pool birch 0 testPool).2.1.count w
          + (get_pool birch 0 testPool).2.2.count w = testPool.count w)) :=
  ⟨⟨by decide, by decide⟩,
    get_pool_partition birch 0 testPool (by decide) (by decide)⟩

/-- C3 counterexample: on the unit-test pool with guess "birch" at
position 0, `get_pool` does NOT return
(["birch"], [], ["beech","cedar","ebony","maple"]) as the claim states:
"beech" also starts with 'b' (exact bucket) and "ebony" contains 'b'
(present-elsewhere bucket), exactly as src/unitTests.py::Test_get_pool
asserts. -/
theorem get_pool_birch_not_claimed :
    get_pool birch 0 testPool ≠ ([birch], ([], [beech, cedar, ebony, maple])) := by
  decide

/-- C3 amended: for the pool ["birch","beech","cedar","ebony","maple"],
guess "birch", position 0, the partition returns exact-match bucket
["birch","beech"], present-elsewhere bucket ["ebony"], absent bucket
["cedar","maple"] (the assertion of src/unitTests.py::Test_get_pool). -/
theorem get_pool_birch_scenario :
    get_pool birch 0 testPool = ([birch, beech], ([ebony], [cedar, maple])) := by
  decide

theorem calculate_score_eq_spec_aux (guess : Word) :
    ∀ n pos pool, 5 - pos ≤ n →
      calculate_score guess pos pool = spec_score guess pos pool := by
  intro n
  induction n with
  | zero =>
    intro pos pool h
    rw [calculate_score, spec_score]
    by_cases h1 : pool.length ≤ 1
    · simp [h1]
    · simp [h1, show 4 < pos by omega, show 5 ≤ pos by omega]
  | succ n ih =>
    intro pos pool h
    rw [calculate_score, spec_score]
    by_cases h1 : pool.length ≤ 1
    · simp [h1]
    · by_cases h2 : 4 < pos
      · simp [h1, h2, show 5 ≤ pos by omega]
      · have h5 : ¬ 5 ≤ pos := by omega
        simp only [h1, h2, h5, if_false, if_neg, not_false_iff]
        have step : ∀ bucket : List Word,
            ((bucket.length : ℚ) / (pool.length : ℚ))
                * calculate_score guess (pos + 1) bucket
              = if bucket = [] then 0
                else ((bucket.length : ℚ) / (pool.length : ℚ))
                  * spec_score guess (pos + 1) bucket := by
          intro bucket
          by_cases hb : bucket = []
          · subst hb; simp
          · rw [if_neg hb, ih (pos + 1) bucket (by omega)]
        rw [step, step, step]

/-- C1: the scorer follows the spec's recursive definition with L = 5:
`calculate_score` agrees everywhere with `spec_score`, the function
written from the spec's words (base case A returns 1 when the pool has at
most one word; base case B returns the pool size once `pos` passes the
last letter position; otherwise the three buckets' scores at `pos + 1`
are weighted by bucket frequency and summed, empty buckets contributing
zero). -/
theorem calculate_score_follows_spec (guess : Word) (pos : Nat) (pool : List Word) :
    calculate_score guess pos pool = spec_score guess pos pool :=
  calculate_score_eq_spec_aux guess (5 - pos) pos pool le_rfl

theorem one_le_calculate_score_aux (guess : Word) :
    ∀ n pos pool, 5 - pos ≤ n → 1 ≤ calculate_score guess pos pool := by
  intro n
  induction n with
  | zero =>
    intro pos pool h
    rw [calculate_score]
    by_cases h1 : pool.length ≤ 1
    · simp [h1]
    · have h2 : 4 < pos := by omega
      simp only [h1, h2, if_true, if_false]
      have : (2 : ℚ) ≤ (pool.length : ℚ) := by exact_mod_cast (by omega : 2 ≤ pool.length)
      linarith
  | succ n ih =>
    intro pos pool h
    rw [calculate_score]
    by_cases h1 : pool.length ≤ 1
    · simp [h1]
    · by_cases h2 : 4 < pos
      · simp only [h1, h2, if_true, if_false]
        have : (2 : ℚ) ≤ (pool.length : ℚ) := by exact_mod_cast (by omega : 2 ≤ pool.length)
        linarith
      · simp only [h1, h2, if_false]
        have hL : (0 : ℚ) < (pool.length : ℚ) := by
          exact_mod_cast (by omega : 0 < pool.length)
        have hsum := get_pool_length_sum guess pos pool
        set b := get_pool guess pos pool with hb
        have t1 : ((b.1.length : ℚ) / (pool.length : ℚ))
            ≤ ((b.1.length : ℚ) / (pool.length : ℚ)) * calculate_score guess (pos + 1) b.1 :=
          le_mul_of_one_le_right (by positivity) (ih (pos + 1) b.1 (by omega))
        have t2 : ((b.2.1.length : ℚ) / (pool.length : ℚ))
            ≤ ((b.2.1.length : ℚ) / (pool.length : ℚ)) * calculate_score guess (pos + 1) b.2.1 :=
          le_mul_of_one_le_right (by positivity) (ih (pos + 1) b.2.1 (by omega))
        have t3 : ((b.2.2.length : ℚ) / (pool.length : ℚ))
            ≤ ((b.2.2.length : ℚ) / (pool.length : ℚ)) * calculate_score guess (pos + 1) b.2.2 :=
          le_mul_of_one_le_right (by positivity) (ih (pos + 1) b.2.2 (by omega))
        have hone : ((b.1.length : ℚ) + (b.2.1.length : ℚ) + (b.2.2.length : ℚ))
            / (pool.length : ℚ) = 1 := by
          rw [div_eq_one_iff_eq (ne_of_gt hL)]
          exact_mod_cast hsum
        have hsplit : ((b.1.length : ℚ) + (b.2.1.length : ℚ) + (b.2.2.length : ℚ))
            / (pool.length : ℚ)
            = (b.1.length : ℚ) / (pool.length : ℚ) + (b.2.1.length : ℚ) / (pool.length : ℚ)
              + (b.2.2.length : ℚ) / (pool.length : ℚ) := by
          ring
        linarith [hone, hsplit]

theorem calculate_score_le_aux (guess : Word) :
    ∀ n pos pool, 5 - pos ≤ n → 1 ≤ pool.length →
      calculate_score guess pos pool ≤ (pool.length : ℚ) := by
  intro n
  induction n with
  | zero =>
    intro pos pool h hne
    rw [calculate_score]
    by_cases h1 : pool.length ≤ 1
    · have : pool.length = 1 := by omega
      simp [h1, this]
    · have h2 : 4 < pos := by omega
      simp [h1, h2]
  | succ n ih =>
    intro pos pool h hne
    rw [calculate_score]
    by_cases h1 : pool.length ≤ 1
    · have : pool.length = 1 := by omega
      simp [h1, this]
    · by_cases h2 : 4 < pos
      · simp [h1, h2]
      · simp only [h1, h2, if_false]
        have hL : (0 : ℚ) < (pool.length : ℚ) := by
          exact_mod_cast (by omega : 0 < pool.length)
        have hsum := get_pool_length_sum guess pos pool
        set b := get_pool guess pos pool with hb
        have key : ∀ bucket : List Word, bucket.length ≤ pool.length →
            ((bucket.length : ℚ) / (pool.length : ℚ))
              * calculate_score guess (pos + 1) bucket ≤ (bucket.length : ℚ) := by
          intro bucket hble
          by_cases hb0 : bucket.length = 0
          · simp [hb0]
          · have hs : calculate_score guess (pos + 1) bucket ≤ (bucket.length : ℚ) :=
              ih (pos + 1) bucket (by omega) (by omega)
            have hbL : (bucket.length : ℚ) ≤ (pool.length : ℚ) := by exact_mod_cast hble
            calc ((bucket.length : ℚ) / (pool.length : ℚ))
                  * calculate_score guess (pos + 1) bucket
                ≤ ((bucket.length : ℚ) / (pool.length : ℚ)) * (pool.length : ℚ) := by
                  apply mul_le_mul_of_nonneg_left _ (by positivity)
                  linarith
              _ = (bucket.length : ℚ) := div_mul_cancel₀ _ (ne_of_gt hL)
        have k1 := key b.1 (by omega)
        have k2 := key b.2.1 (by omega)
        have k3 := key b.2.2 (by omega)
        have hcast : (b.1.length : ℚ) + (b.2.1.length : ℚ) + (b.2.2.length : ℚ)
            = (pool.length : ℚ) := by exact_mod_cast hsum
        linarith

/-- C4 counterexample: on the empty pool the scorer returns 1 (base case A
fires since `len([]) = 0 <= 1`), which does NOT lie in the closed interval
[1, len(pool)] = [1, 0]; so the range claim fails for the empty pool. -/
theorem calculate_score_empty_pool_counterexample :
    calculate_score birch 0 ([] : List Word) = 1
    ∧ ¬(calculate_score birch 0 ([] : List Word) ≤ ((([] : List Word)).length : ℚ)) := by
  have h : calculate_score birch 0 ([] : List Word) = 1 := by
    rw [calculate_score]; simp
  refine ⟨h, ?_⟩
  rw [h]
  simp

/-- C4 amended: for every guess and every NON-EMPTY pool, the score
returned by the scorer (calculate_score starting at position 0) lies in
the closed interval [1, len(pool)]; and whenever len(pool) <= 1 the
scorer returns exactly 1 for every guess. -/
theorem calculate_score_bounds (guess : Word) (pool : List Word) :
    (pool ≠ [] →
      1 ≤ calculate_score guess 0 pool
      ∧ calculate_score guess 0 pool ≤ (pool.length : ℚ))
    ∧ (pool.length ≤ 1 → calculate_score guess 0 pool = 1) := by
  constructor
  · intro h
    have hne : 1 ≤ pool.length := List.length_pos.mpr h
    exact ⟨one_le_calculate_score_aux guess 5 0 pool (by omega),
      calculate_score_le_aux guess 5 0 pool (by omega) hne⟩
  · intro hle
    rw [calculate_score]
    simp [hle]

/-- C4 witness: the amended bounds instantiated at guess "cedar" and the
singleton pool ["birch"], discharging both hypotheses concretely. -/
theorem calculate_score_bounds_witness :
    (([birch] : List Word) ≠ []
      ∧ (1 ≤ calculate_score cedar 0 [birch]
        ∧ calculate_score cedar 0 [birch] ≤ ((([birch] : List Word)).length : ℚ)))
    ∧ ((([birch] : List Word)).length ≤ 1 ∧ calculate_score cedar 0 [birch] = 1) :=
  ⟨⟨by decide, (calculate_score_bounds cedar [birch]).1 (by decide)⟩,
   ⟨by decide, (calculate_score_bounds cedar [birch]).2 (by decide)⟩⟩

theorem find_guess_fold_aux (pool : List Word) :
    ∀ (l : List Word) (bg : Word) (bs : ℚ),
      ∃ g s, l.foldl (find_guess_fold pool) (some (bg, bs)) = some (g, s)
        ∧ s ≤ bs
        ∧ (∀ x ∈ l, s ≤ calculate_score x 0 pool)
        ∧ ((g = bg ∧ s = bs)
          ∨ ∃ l₁ l₂, l = l₁ ++ g :: l₂ ∧ s = calculate_score g 0 pool
              ∧ s < bs ∧ ∀ x ∈ l₁, s < calculate_score x 0 pool) := by
  intro l
  induction l with
  | nil =>
    intro bg bs
    exact ⟨bg, bs, rfl, le_rfl, by simp, Or.inl ⟨rfl, rfl⟩⟩
  | cons x xs ih =>
    intro bg bs
    rw [List.foldl_cons]
    by_cases hx : calculate_score x 0 pool < bs
    · have hstep : find_guess_fold pool (some (bg, bs)) x
          = some (x, calculate_score x 0 pool) := by
        simp [find_guess_fold, hx]
      rw [hstep]
      obtain ⟨g, s, hfold, hsle, hmin, hcase⟩ := ih x (calculate_score x 0 pool)
      refine ⟨g, s, hfold, le_of_lt (lt_of_le_of_lt hsle hx), ?_, ?_⟩
      · intro y hy
        rcases List.mem_cons.mp hy with hy | hy
        · subst hy; exact hsle
        · exact hmin y hy
      · rcases hcase with ⟨hg, hs⟩ | ⟨l₁, l₂, hl, hs, hlt, hstrict⟩
        · subst hg
          exact Or.inr ⟨[], xs, by simp, hs, hs ▸ hx, by simp⟩
        · refine Or.inr ⟨x :: l₁, l₂, by simp [hl], hs, lt_trans hlt hx, ?_⟩
          intro y hy
          rcases List.mem_cons.mp hy with hy | hy
          · subst hy; exact hlt
          · exact hstrict y hy
    · have hxge : bs ≤ calculate_score x 0 pool := not_lt.mp hx
      have hstep : find_guess_fold pool (some (bg, bs)) x = some (bg, bs) := by
        simp [find_guess_fold, hx]
      rw [hstep]
      obtain ⟨g, s, hfold, hsle, hmin, hcase⟩ := ih bg bs
      refine ⟨g, s, hfold, hsle, ?_, ?_⟩
      · intro y hy
        rcases List.mem_cons.mp hy with hy | hy
        · subst hy; exact le_trans hsle hxge
        · exact hmin y hy
      · rcases hcase with ⟨hg, hs⟩ | ⟨l₁, l₂, hl, hs, hlt, hstrict⟩
        · exact Or.inl ⟨hg, hs⟩
        · refine Or.inr ⟨x :: l₁, l₂, by simp [hl], hs, hlt, ?_⟩
          intro y hy
          rcases List.mem_cons.mp hy with hy | hy
          · subst hy; exact lt_of_lt_of_le hlt hxge
          · exact hstrict y hy

/-- C5: for every non-empty allowed-guess list, `find_guess`'s selection
loop returns a member of that list whose score is minimal over the list;
a strictly lower score wins, and on exact ties the earliest-evaluated
guess is kept (every guess evaluated before the winner has a strictly
greater score). -/
theorem find_guess_best_minimal (can_guess pool : List Word) (h : can_guess ≠ []) :
    ∃ g s l₁ l₂,
      find_guess_best can_guess pool = some (g, s)
      ∧ can_guess = l₁ ++ g :: l₂
      ∧ g ∈ can_guess
      ∧ s = calculate_score g 0 pool
      ∧ (∀ x ∈ can_guess, s ≤ calculate_score x 0 pool)
      ∧ (∀ x ∈ l₁, s < calculate_score x 0 pool) := by
  match can_guess, h with
  | x :: xs, _ =>
    have h0 : find_guess_best (x :: xs) pool
        = xs.foldl (find_guess_fold pool) (some (x, calculate_score x 0 pool)) := by
      rw [find_guess_best, List.foldl_cons]
      rfl
    obtain ⟨g, s, hfold, hsle, hmin, hcase⟩ := find_guess_fold_aux pool xs x
      (calculate_score x 0 pool)
    rcases hcase with ⟨hg, hs⟩ | ⟨l₁, l₂, hl, hs, hlt, hstrict⟩
    · subst hg
      refine ⟨g, s, [], xs, by rw [h0]; exact hfold, by simp, by simp, hs, ?_, by simp⟩
      intro y hy
      rcases List.mem_cons.mp hy with hy | hy
      · subst hy; exact le_of_eq hs
      · exact hmin y hy
    · refine ⟨g, s, x :: l₁, l₂, by rw [h0]; exact hfold, by simp [hl], ?_, hs, ?_, ?_⟩
      · simp [hl]
      · intro y hy
        rcases List.mem_cons.mp hy with hy | hy
        · subst hy; exact le_of_lt hlt
        · exact hmin y hy
      · intro y hy
        rcases List.mem_cons.mp hy with hy | hy
        · subst hy; exact hlt
        · exact hstrict y hy

/-- C5 witness: instantiated at the singleton allowed set ["ebony"] with
the empty pool. -/
theorem find_guess_best_minimal_witness :
    ([ebony] : List Word) ≠ []
    ∧ ∃ g s l₁ l₂,
        find_guess_best [ebony] [] = some (g, s)
        ∧ [ebony] = l₁ ++ g :: l₂
        ∧ g ∈ ([ebony] : List Word)
        ∧ s = calculate_score g 0 []
        ∧ (∀ x ∈ ([ebony] : List Word), s ≤ calculate_score x 0 [])
        ∧ (∀ x ∈ l₁, s < calculate_score x 0 []) :=
  ⟨by decide, find_guess_best_minimal [ebony] [] (by decide)⟩

theorem lookup_append (k : String) (c d : List (String × Word)) :
    (c ++ d).lookup k = ((c.lookup k).or (d.lookup k)) := by
  induction c with
  | nil => simp [List.lookup]
  | cons p c ih =>
    obtain ⟨a, b⟩ := p
    simp only [List.cons_append, List.lookup]
    by_cases hk : (k == a) = true
    · simp [hk]
    · simp only [Bool.not_eq_true] at hk
      simp [hk, ih]

theorem lookup_setdefault_preserve (cache : List (String × Word)) (k k' : String)
    (v v' : Word) (h : cache.lookup k = some v) :
    (setdefault cache k' v').lookup k = some v := by
  rw [setdefault]
  split
  · exact h
  · rw [lookup_append, h]
    rfl

theorem lookup_setdefault_new (cache : List (String × Word)) (k k' : String)
    (v v' : Word) (h0 : cache.lookup k = none)
    (h : (setdefault cache k' v').lookup k = some v) : k = k' := by
  rw [setdefault] at h
  split at h
  · rw [h0] at h
    cases h
  · rw [lookup_append, h0, Option.none_or] at h
    by_cases hk : (k == k') = true
    · exact eq_of_beq hk
    · simp only [Bool.not_eq_true] at hk
      simp [List.lookup, hk] at h

theorem find_guess_step_spec (s : AgentState) (g : Word) (s' : AgentState)
    (h : find_guess_step s = some (g, s')) :
    (∀ k v, s.cache.lookup k = some v → s'.cache.lookup k = some v)
    ∧ (∀ k v, s.cache.lookup k = none → s'.cache.lookup k = some v →
        s.feedback_so_far = some k ∧ k.length ≠ 0)
    ∧ s'.guess = s.guess ∧ s'.pool = s.pool ∧ s'.allowed = s.allowed
    ∧ s'.possible = s.possible ∧ s'.can_guess = s.can_guess
    ∧ s'.feedback_so_far = s.feedback_so_far ∧ s'.searches = s.searches + 1
    ∧ ∃ sc, find_guess_best s.can_guess s.pool = some (g, sc) := by
  rw [find_guess_step] at h
  cases hfb : s.feedback_so_far with
  | none => rw [hfb] at h; cases h
  | some fb =>
    rw [hfb] at h
    dsimp only at h
    cases hbest : find_guess_best s.can_guess s.pool with
    | none =>
      rw [hbest] at h
      cases h
    | some p =>
      obtain ⟨g0, sc⟩ := p
      rw [hbest] at h
      dsimp only at h
      by_cases hlen : fb.length ≠ 0
      · rw [if_pos hlen] at h
        simp only [Option.some.injEq, Prod.mk.injEq] at h
        obtain ⟨rfl, rfl⟩ := h
        refine ⟨?_, ?_, rfl, rfl, rfl, rfl, rfl, rfl, rfl, sc, rfl⟩
        · intro k v hk
          exact lookup_setdefault_preserve s.cache k fb v g0 hk
        · intro k v hk0 hk1
          have := lookup_setdefault_new s.cache k fb v g0 hk0 hk1
          subst this
          exact ⟨rfl, hlen⟩
      · rw [if_neg hlen] at h
        simp only [Option.some.injEq, Prod.mk.injEq] at h
        obtain ⟨rfl, rfl⟩ := h
        refine ⟨fun k v hk => hk, ?_, rfl, rfl, rfl, rfl, rfl, rfl, rfl, sc, rfl⟩
        intro k v hk0 hk1
        rw [hk0] at hk1
        cases hk1

theorem first_guess_step_memoized (s : AgentState) (g : Word) (hg : s.guess = some g) :
    first_guess_step s
      = some (g, { s with pool := s.possible, can_guess := s.allowed,
                          feedback_so_far := some "" }) := by
  rw [first_guess_step]
  dsimp only
  rw [hg]

theorem first_guess_step_spec (s : AgentState) (g : Word) (s' : AgentState)
    (h : first_guess_step s = some (g, s')) :
    s'.cache = s.cache
    ∧ s'.pool = s.possible ∧ s'.can_guess = s.allowed
    ∧ s'.feedback_so_far = some ""
    ∧ s'.allowed = s.allowed ∧ s'.possible = s.possible
    ∧ s'.guess = some g
    ∧ ((∃ g0, s.guess = some g0 ∧ g = g0 ∧ s'.searches = s.searches)
      ∨ (s.guess = none ∧ s'.searches = s.searches + 1
          ∧ ∃ sc, find_guess_best s.allowed s.possible = some (g, sc))) := by
  rw [first_guess_step] at h
  dsimp only at h
  cases hg : s.guess with
  | some g0 =>
    rw [hg] at h
    dsimp only at h
    simp only [Option.some.injEq, Prod.mk.injEq] at h
    obtain ⟨rfl, rfl⟩ := h
    exact ⟨rfl, rfl, rfl, rfl, rfl, rfl, rfl, Or.inl ⟨g0, rfl, rfl, rfl⟩⟩
  | none =>
    rw [hg] at h
    dsimp only at h
    cases hfg : find_guess_step (⟨s.allowed, s.possible, s.possible, s.allowed, s.cache, some "", none, s.searches⟩ : AgentState) with
    | none =>
      rw [hfg] at h
      cases h
    | some p =>
      obtain ⟨g2, s2⟩ := p
      rw [hfg] at h
      dsimp only at h
      simp only [Option.some.injEq, Prod.mk.injEq] at h
      obtain ⟨rfl, rfl⟩ := h
      obtain ⟨_, _, hguess, hpool, hallowed, hpossible, hcan, hfb2, hsearch, sc, hbest⟩ :=
        find_guess_step_spec _ g2 s2 hfg
      refine ⟨?_, ?_, ?_, ?_, ?_, ?_, rfl, Or.inr ⟨rfl, ?_, sc, ?_⟩⟩
      · -- cache: find_guess_step on key "" takes the no-insert branch
        rw [find_guess_step] at hfg
        dsimp only at hfg
        cases hbest2 : find_guess_best s.allowed s.possible with
        | none => rw [hbest2] at hfg; cases hfg
        | some p2 =>
          obtain ⟨g3, sc3⟩ := p2
          rw [hbest2] at hfg
          dsimp only at hfg
          rw [if_neg (by decide)] at hfg
          simp only [Option.some.injEq, Prod.mk.injEq] at hfg
          obtain ⟨rfl, rfl⟩ := hfg
          rfl
      · exact hpool
      · exact hcan
      · exact hfb2
      · exact hallowed
      · exact hpossible
      · exact hsearch
      · exact hbest

theorem eval_calculate_score_empty (g : Word) : calculate_score g 0 [] = 1 := by
  rw [calculate_score]
  simp

theorem eval_find_guess_best_single : find_guess_best [ebony] [] = some (ebony, 1) := by
  rw [find_guess_best, List.foldl_cons, List.foldl_nil]
  rw [show find_guess_fold [] none ebony = some (ebony, calculate_score ebony 0 []) from rfl]
  rw [eval_calculate_score_empty]

theorem eval_first_guess_init :
    first_guess_step (AgentState.init [ebony] []) = some (ebony, firstGuessedState) := by
  rw [first_guess_step]
  dsimp only [AgentState.init]
  rw [find_guess_step]
  dsimp only
  rw [eval_find_guess_best_single]
  dsimp only
  rw [if_neg (by decide)]
  rfl

/-- C8: calling `first_guess` twice on a freshly constructed agent (no
intervening feedback) returns the same word both times, and the second
call performs no new guess-selector search: the ghost search counter is
unchanged and the memoized lifetime first guess is returned. -/
theorem first_guess_idempotent (allowed possible : List Word) (g : Word)
    (s₁ : AgentState)
    (h : first_guess_step (AgentState.init allowed possible) = some (g, s₁)) :
    ∃ s₂, first_guess_step s₁ = some (g, s₂)
      ∧ s₂.searches = s₁.searches ∧ s₂.guess = some g := by
  have hg : s₁.guess = some g := (first_guess_step_spec _ g s₁ h).2.2.2.2.2.2.1
  exact ⟨_, first_guess_step_memoized s₁ g hg, rfl, hg⟩

/-- C8 witness: the fresh agent with allowed = ["ebony"], possible = []. -/
theorem first_guess_idempotent_witness :
    (first_guess_step (AgentState.init [ebony] []) = some (ebony, firstGuessedState))
    ∧ ∃ s₂, first_guess_step firstGuessedState = some (ebony, s₂)
      ∧ s₂.searches = firstGuessedState.searches ∧ s₂.guess = some ebony :=
  ⟨eval_first_guess_init,
    first_guess_idempotent [ebony] [] ebony firstGuessedState eval_first_guess_init⟩

/-- C9: when the pool is empty, a `next_guess` request is an explicit
failure (the IndexError from `self.pool[0]`, modelled as `none`), not a
normal return. -/
theorem next_guess_empty_pool (s : AgentState) (h : s.pool = []) :
    next_guess_step s = none := by
  rw [next_guess_step, h]
  simp

/-- C9 witness: a concrete agent state whose pool is empty. -/
theorem next_guess_empty_pool_witness :
    emptyPoolState.pool = [] ∧ next_guess_step emptyPoolState = none :=
  ⟨rfl, next_guess_empty_pool emptyPoolState rfl⟩

/-- C7: `next_guess` decision order: a pool of at most 3 candidates
returns the first remaining candidate with the state untouched (no search,
no cache access changes anything); otherwise a cache hit on the current
feedback-history key returns the cached guess with the state untouched;
otherwise the guess selector `find_guess` is invoked and its result
returned. -/
theorem next_guess_decision_order (s : AgentState) :
    (∀ w, s.pool.length ≤ 3 → s.pool.head? = some w →
      next_guess_step s = some (w, s))
    ∧ (3 < s.pool.length → ∀ w, cacheLookup s.cache s.feedback_so_far = some w →
      next_guess_step s = some (w, s))
    ∧ (3 < s.pool.length → cacheLookup s.cache s.feedback_so_far = none →
      next_guess_step s = find_guess_step s) := by
  refine ⟨?_, ?_, ?_⟩
  · intro w h3 hw
    rw [next_guess_step, if_pos h3, hw]
  · intro h3 w hw
    rw [next_guess_step, if_neg (by omega), hw]
  · intro h3 hw
    rw [next_guess_step, if_neg (by omega), hw]

/-- C7 witness: a state with the one-word pool ["birch"] takes the
small-pool shortcut. -/
theorem next_guess_decision_order_witness :
    (smallPoolState.pool.length ≤ 3 ∧ smallPoolState.pool.head? = some birch)
    ∧ next_guess_step smallPoolState = some (birch, smallPoolState) :=
  ⟨⟨by decide, rfl⟩, (next_guess_decision_order smallPoolState).1 birch (by decide) rfl⟩

/-- C6: across every public-interface step, the guess cache is
first-writer-wins (an existing binding is never overwritten), any newly
inserted key is a non-empty feedback-history string, and the lifetime
first guess is write-once: once set it never changes, and a further
`first_guess` request performs no new selector search (ghost counter
unchanged). -/
theorem guess_cache_invariant
    (filt : Word → List String → List Word → List Word)
    (s : AgentState) (op : AgentOp) (out : Option Word) (s' : AgentState)
    (h : agent_step filt s op = some (out, s')) :
    (∀ k v, s.cache.lookup k = some v → s'.cache.lookup k = some v)
    ∧ (∀ k v, s.cache.lookup k = none → s'.cache.lookup k = some v → k ≠ "")
    ∧ (∀ g, s.guess = some g → s'.guess = some g)
    ∧ (∀ g, s.guess = some g → op = AgentOp.firstGuess → s'.searches = s.searches) := by
  cases op with
  | firstGuess =>
    simp only [agent_step] at h
    cases hfg : first_guess_step s with
    | none => rw [hfg] at h; cases h
    | some p =>
      obtain ⟨g, s1⟩ := p
      rw [hfg] at h
      simp only [Option.map_some', Option.some.injEq, Prod.mk.injEq] at h
      obtain ⟨rfl, rfl⟩ := h
      obtain ⟨hcache, hpool, hcan, hfb, hall, hposs, hguess, hrest⟩ :=
        first_guess_step_spec s g s1 hfg
      refine ⟨?_, ?_, ?_, ?_⟩
      · intro k v hk
        rw [hcache]
        exact hk
      · intro k v hk0 hk1
        rw [hcache, hk0] at hk1
        cases hk1
      · intro g0 hg0
        rcases hrest with ⟨g1, hg1, rfl, _⟩ | ⟨hnone, _⟩
        · rw [hguess]
          rw [hg0] at hg1
          exact hg1.symm
        · rw [hnone] at hg0
          cases hg0
      · intro g0 hg0 _
        rcases hrest with ⟨g1, hg1, hgeq, hsearch⟩ | ⟨hnone, _⟩
        · exact hsearch
        · rw [hnone] at hg0
          cases hg0
  | nextGuess =>
    simp only [agent_step] at h
    cases hng : next_guess_step s with
    | none => rw [hng] at h; cases h
    | some p =>
      obtain ⟨g, s1⟩ := p
      rw [hng] at h
      simp only [Option.map_some', Option.some.injEq, Prod.mk.injEq] at h
      obtain ⟨rfl, rfl⟩ := h
      rw [next_guess_step] at hng
      by_cases h3 : s.pool.length ≤ 3
      · rw [if_pos h3] at hng
        cases hh : s.pool.head? with
        | none => rw [hh] at hng; cases hng
        | some w =>
          rw [hh] at hng
          dsimp only at hng
          simp only [Option.some.injEq, Prod.mk.injEq] at hng
          obtain ⟨rfl, rfl⟩ := hng
          refine ⟨fun k v hk => hk, ?_, fun g0 hg0 => hg0,
            fun g0 hg0 hcon => AgentOp.noConfusion hcon⟩
          intro k v hk0 hk1
          rw [hk0] at hk1
          cases hk1
      · rw [if_neg h3] at hng
        cases hcl : cacheLookup s.cache s.feedback_so_far with
        | some w =>
          rw [hcl] at hng
          dsimp only at hng
          simp only [Option.some.injEq, Prod.mk.injEq] at hng
          obtain ⟨rfl, rfl⟩ := hng
          refine ⟨fun k v hk => hk, ?_, fun g0 hg0 => hg0,
            fun g0 hg0 hcon => AgentOp.noConfusion hcon⟩
          intro k v hk0 hk1
          rw [hk0] at hk1
          cases hk1
        | none =>
          rw [hcl] at hng
          dsimp only at hng
          obtain ⟨hpres, hnew, hguess, _⟩ := find_guess_step_spec s g s1 hng
          refine ⟨hpres, ?_, fun g0 hg0 => by rw [hguess]; exact hg0,
            fun g0 hg0 hcon => AgentOp.noConfusion hcon⟩
          intro k v hk0 hk1
          obtain ⟨hfbk, hklen⟩ := hnew k v hk0 hk1
          intro hk2
          subst hk2
          exact hklen rfl
  | reportFeedback gw fb =>
    simp only [agent_step, report_feedback_step] at h
    cases hfb : s.feedback_so_far with
    | none => rw [hfb] at h; cases h
    | some fb0 =>
      rw [hfb] at h
      simp only [Option.map_some', Option.some.injEq, Prod.mk.injEq] at h
      obtain ⟨rfl, rfl⟩ := h
      refine ⟨fun k v hk => hk, ?_, fun g0 hg0 => hg0,
        fun g0 hg0 hcon => AgentOp.noConfusion hcon⟩
      intro k v hk0 hk1
      rw [hk0] at hk1
      cases hk1

/-- C6 witness: a `report_feedback` step on a mid-game state (feedback
history "g"), with the trivial filter. -/
theorem guess_cache_invariant_witness :
    (agent_step idFilter midGameState (AgentOp.reportFeedback birch [])
      = some (none, midGameStateAfter))
    ∧ ((∀ k v, midGameState.cache.lookup k = some v →
          midGameStateAfter.cache.lookup k = some v)
      ∧ (∀ k v, midGameState.cache.lookup k = none →
          midGameStateAfter.cache.lookup k = some v → k ≠ "")
      ∧ (∀ g, midGameState.guess = some g → midGameStateAfter.guess = some g)
      ∧ (∀ g, midGameState.guess = some g →
          AgentOp.reportFeedback birch [] = AgentOp.firstGuess →
          midGameStateAfter.searches = midGameState.searches)) :=
  ⟨rfl, guess_cache_invariant idFilter midGameState (AgentOp.reportFeedback birch [])
    none midGameStateAfter rfl⟩

/-- C10: on a freshly constructed agent the feedback-history field is
`None` (not the empty string), so `report_feedback` fails (the `None +=
str` TypeError, modelled as `none`); once `first_guess` has been called,
`report_feedback` succeeds. -/
theorem report_feedback_requires_first_guess
    (filt : Word → List String → List Word → List Word)
    (allowed possible : List Word) (gw : Word) (fb : List String) :
    (AgentState.init allowed possible).feedback_so_far = none
    ∧ report_feedback_step filt (AgentState.init allowed possible) gw fb = none
    ∧ (∀ g s₁, first_guess_step (AgentState.init allowed possible) = some (g, s₁) →
        ∃ s₂, report_feedback_step filt s₁ gw fb = some s₂) := by
  refine ⟨rfl, rfl, ?_⟩
  intro g s₁ h1
  have hfb : s₁.feedback_so_far = some "" :=
    (first_guess_step_spec _ g s₁ h1).2.2.2.1
  rw [report_feedback_step, hfb]
  exact ⟨_, rfl⟩

/-- C10 witness: fresh agent with allowed = ["ebony"], possible = [];
`report_feedback` fails before the first guess and succeeds after it. -/
theorem report_feedback_requires_first_guess_witness :
    ((AgentState.init [ebony] []).feedback_so_far = none
      ∧ report_feedback_step idFilter (AgentState.init [ebony] []) ebony [] = none
      ∧ (∀ g s₁, first_guess_step (AgentState.init [ebony] []) = some (g, s₁) →
          ∃ s₂, report_feedback_step idFilter s₁ ebony [] = some s₂))
    ∧ (first_guess_step (AgentState.init [ebony] []) = some (ebony, firstGuessedState)
      ∧ ∃ s₂, report_feedback_step idFilter firstGuessedState ebony [] = some s₂) :=
  ⟨report_feedback_requires_first_guess idFilter [ebony] [] ebony [],
    eval_first_guess_init,
    (report_feedback_requires_first_guess idFilter [ebony] [] ebony []).2.2
      ebony firstGuessedState eval_first_guess_init⟩
